import Mathlib

/-!
Verification of the ragged-list, batching, combination and lookup utilities of
`src/autorag/utils/util.py` (AutoRAG). Each Python function is shallowly
embedded as an executable Lean definition; Python exceptions are modelled as
`Except String`, Python `None` as `Option.none`, and machine-level details
(pandas dataframes, asyncio scheduling, tokenizers) are modelled by their
documented observable behaviour on the in-memory data.
-/

namespace AutoRAG

/-- Python slice `l[i : i + n]` for nonnegative `i` and `n`:
the elements at positions `i, i+1, ..., i+n-1` that exist. -/
def pySlice (l : List α) (i n : Nat) : List α :=
  (l.drop i).take n

/-- Error message raised by CPython when `range` receives step `0`. -/
def rangeStepZeroMsg : String :=
  "ValueError: range() arg 3 must not be zero"

/-- Python `range(0, stop, step)` for a nonnegative `stop` (both call sites in
`util.py` pass `stop = len(elems) >= 0` and `start = 0`). Step `0` raises
`ValueError`; a negative step yields no elements because the start `0` is not
greater than the nonnegative stop; a positive step yields
`0, step, 2*step, ...` while below `stop`. -/
def pyRange (stop : Nat) (step : Int) : Except String (List Nat) :=
  if step = 0 then .error rangeStepZeroMsg
  else if step < 0 then .ok []
  else .ok ((List.range ((stop + step.toNat - 1) / step.toNat)).map (· * step.toNat))

/-- `reconstruct_list(flat_list, lengths)` (util.py lines 315-321): starts from
`result = []`, `start = 0` and for each `length` appends the slice
`flat_list[start : start + length]` and advances `start` by `length`.
Lengths are modelled as naturals, as at every call site they are actual row
lengths (`content_lengths = list(map(len, contents_list))`). -/
def reconstruct_list (flat_list : List α) (lengths : List Nat) : List (List α) :=
  (lengths.foldl
    (fun (st : List (List α) × Nat) len =>
      (st.1 ++ [pySlice flat_list st.2 len], st.2 + len))
    ([], 0)).1

/-- Python `list(itertools.chain.from_iterable(contents_list))`: concatenation
of the rows in order (util.py line 444). -/
def chain_from_iterable (contents_list : List (List α)) : List α :=
  contents_list.flatten

/-- Structural companion of `reconstruct_list`: the same slices, produced by
recursion on the length list with the running offset `s` explicit. -/
def reconAux (flat : List α) : Nat → List Nat → List (List α)
  | _, [] => []
  | s, len :: ls => pySlice flat s len :: reconAux flat (s + len) ls

theorem reconstruct_foldl_aux (flat : List α) (ls : List Nat)
    (acc : List (List α)) (s : Nat) :
    (ls.foldl
      (fun (st : List (List α) × Nat) len =>
        (st.1 ++ [pySlice flat st.2 len], st.2 + len))
      (acc, s)).1 = acc ++ reconAux flat s ls := by
  induction ls generalizing acc s with
  | nil => simp [reconAux]
  | cons len ls ih =>
      simp only [List.foldl_cons, reconAux]
      rw [ih]
      simp

theorem reconstruct_list_eq_aux (flat : List α) (ls : List Nat) :
    reconstruct_list flat ls = reconAux flat 0 ls := by
  unfold reconstruct_list
  rw [reconstruct_foldl_aux]
  simp

theorem reconAux_append_shift (xs flat : List α) (s : Nat) (ls : List Nat) :
    reconAux (xs ++ flat) (xs.length + s) ls = reconAux flat s ls := by
  induction ls generalizing s with
  | nil => rfl
  | cons len ls ih =>
      simp only [reconAux, pySlice]
      congr 1
      · rw [List.drop_append_eq_append_drop]
        simp [List.drop_eq_nil_of_le (Nat.le_add_right xs.length s)]
      · rw [Nat.add_assoc]
        exact ih (s + len)

/-- C1. Round-trip law: flattening a ragged list of rows in order and then
reconstructing with the original per-row lengths returns the input rows. -/
theorem reconstruct_list_roundtrip (rows : List (List α)) :
    reconstruct_list (chain_from_iterable rows) (rows.map List.length) = rows := by
  rw [reconstruct_list_eq_aux]
  suffices h : ∀ rs : List (List α), reconAux rs.flatten 0 (rs.map List.length) = rs by
    exact h rows
  intro rs
  induction rs with
  | nil => rfl
  | cons r rest ih =>
      simp only [List.map_cons, List.flatten_cons, reconAux, pySlice, List.drop_zero]
      congr 1
      · exact List.take_left r rest.flatten
      · have hshift := reconAux_append_shift r rest.flatten 0 (rest.map List.length)
        simpa using hshift.trans ih

theorem reconAux_length (flat : List α) (s : Nat) (ls : List Nat) :
    (reconAux flat s ls).length = ls.length := by
  induction ls generalizing s with
  | nil => rfl
  | cons len ls ih => simp [reconAux, ih]

theorem reconAux_flatten (flat : List α) (s : Nat) (ls : List Nat) :
    (reconAux flat s ls).flatten = (flat.drop s).take ls.sum := by
  induction ls generalizing s with
  | nil => simp [reconAux]
  | cons len ls ih =>
      simp only [reconAux, List.flatten_cons, pySlice, ih, List.sum_cons]
      rw [List.take_add, ← List.drop_drop]

theorem reconAux_map_length (flat : List α) (s : Nat) (ls : List Nat)
    (h : s + ls.sum ≤ flat.length) :
    (reconAux flat s ls).map List.length = ls := by
  induction ls generalizing s with
  | nil => rfl
  | cons len ls ih =>
      simp only [List.sum_cons] at h
      simp only [reconAux, List.map_cons, pySlice]
      congr 1
      · rw [List.length_take, List.length_drop]
        omega
      · exact ih (s + len) (by omega)

/-- C3 counterexample: with flat list `[1, 2, 3]` and declared lengths `[2]`
(sum `2 ≠ 3`), `reconstruct_list` does not fail — it returns `[[1, 2]]`,
silently dropping the trailing element `3`. -/
theorem reconstruct_list_mismatch_cex :
    reconstruct_list [1, 2, 3] [2] = [[1, 2]] ∧
      List.sum [2] ≠ List.length [(1 : Nat), 2, 3] := by
  constructor
  · rfl
  · decide

/-- C3 amended: on a length mismatch (`Σ lengths ≠ len(flat)`)
`reconstruct_list` raises no error; it still returns one chunk per declared
length, positional slicing silently truncating the chunks to the elements that
exist and silently ignoring any surplus elements of the flat list (the chunks
concatenate to the first `Σ lengths` elements of the flat list that exist). -/
theorem reconstruct_list_mismatch_slices (flat : List α) (lengths : List Nat)
    (h : lengths.sum ≠ flat.length) :
    (reconstruct_list flat lengths).length = lengths.length ∧
      (reconstruct_list flat lengths).flatten = flat.take lengths.sum := by
  rw [reconstruct_list_eq_aux]
  refine ⟨reconAux_length flat 0 lengths, ?_⟩
  rw [reconAux_flatten, List.drop_zero]

theorem reconstruct_list_mismatch_slices_witness :
    List.sum [2] ≠ List.length [(1 : Nat), 2, 3] ∧
      ((reconstruct_list [(1 : Nat), 2, 3] [2]).length = 1 ∧
        (reconstruct_list [(1 : Nat), 2, 3] [2]).flatten = [1, 2]) :=
  ⟨by decide, reconstruct_list_mismatch_slices [1, 2, 3] [2] (by decide)⟩

/-- `make_batch(elems, batch_size)` (util.py lines 280-284):
`[elems[i:i + batch_size] for i in range(0, len(elems), batch_size)]`.
The batch size is an `int` as in the source, so zero and negative values run
through Python's `range` semantics. -/
def make_batch (elems : List α) (batch_size : Int) : Except String (List (List α)) :=
  (pyRange elems.length batch_size).map
    (fun idxs => idxs.map (fun i => pySlice elems i batch_size.toNat))

/-- Structural chunking: consecutive chunks of size `b`, last possibly
shorter; returns `[]` when `b = 0` (that case is never reached below). -/
def chunkN (b : Nat) (l : List α) : List (List α) :=
  if h : l.length = 0 ∨ b = 0 then []
  else l.take b :: chunkN b (l.drop b)
termination_by l.length
decreasing_by
  push_neg at h
  have hl : 0 < l.length := Nat.pos_of_ne_zero h.1
  have hb : 0 < b := Nat.pos_of_ne_zero h.2
  simp only [List.length_drop]
  omega

theorem chunkN_nil (b : Nat) : chunkN b ([] : List α) = [] := by
  rw [chunkN]
  simp

theorem chunkN_cons (b : Nat) (hb : 0 < b) (l : List α) (hl : l ≠ []) :
    chunkN b l = l.take b :: chunkN b (l.drop b) := by
  rw [chunkN, dif_neg]
  push_neg
  exact ⟨by simpa using hl, by omega⟩

theorem range_map_pySlice (b : Nat) (hb : 0 < b) :
    ∀ (n : Nat) (l : List α), n = (l.length + b - 1) / b →
      (List.range n).map (fun k => pySlice l (k * b) b) = chunkN b l := by
  intro n
  induction n with
  | zero =>
      intro l hn
      have hlen : l.length = 0 := by
        by_contra hne
        have h1 : 1 ≤ l.length := Nat.pos_of_ne_zero hne
        have h2 : b ≤ l.length + b - 1 := by omega
        have := Nat.div_le_div_right (c := b) h2
        rw [Nat.div_self hb] at this
        omega
      rw [List.length_eq_zero.mp hlen, chunkN_nil]
      rfl
  | succ n ih =>
      intro l hn
      have hl : l ≠ [] := by
        intro hnil
        subst hnil
        simp only [List.length_nil, Nat.zero_add] at hn
        rw [Nat.div_eq_of_lt (by omega)] at hn
        omega
      have hlen : 1 ≤ l.length := List.length_pos.mpr hl
      rw [chunkN_cons b hb l hl, List.range_succ_eq_map, List.map_cons, List.map_map]
      congr 1
      · simp [pySlice]
      · have harith : n = ((l.drop b).length + b - 1) / b := by
          rw [List.length_drop]
          rcases le_or_lt l.length b with hle | hlt
          · have : l.length - b = 0 := by omega
            rw [this, Nat.zero_add, Nat.div_eq_of_lt (by omega)]
            have h2 : l.length + b - 1 < 2 * b := by omega
            have := (Nat.div_lt_iff_lt_mul hb).mpr (by omega : l.length + b - 1 < 2 * b)
            omega
          · have e1 : l.length + b - 1 = (l.length - 1) + b := by omega
            have e2 : l.length - b + b - 1 = (l.length - b - 1) + b := by omega
            have e3 : l.length - 1 = (l.length - b - 1) + b := by omega
            rw [e2, Nat.add_div_right _ hb]
            rw [e1, Nat.add_div_right _ hb] at hn
            rw [e3, Nat.add_div_right _ hb] at hn
            omega
        rw [← ih (l.drop b) harith]
        apply List.map_congr_left
        intro k _
        show pySlice l (k.succ * b) b = pySlice (l.drop b) (k * b) b
        simp only [pySlice, List.drop_drop, Nat.succ_mul]
        rw [Nat.add_comm (k * b) b, Nat.add_comm b (k * b)]

theorem make_batch_pos (elems : List α) (B : Int) (hB : 0 < B) :
    make_batch elems B = .ok (chunkN B.toNat elems) := by
  have hb : 0 < B.toNat := by omega
  have h0 : ¬(B = 0) := by omega
  have h1 : ¬(B < 0) := by omega
  simp only [make_batch, pyRange, if_neg h0, if_neg h1, Except.map, List.map_map]
  exact congrArg Except.ok (range_map_pySlice B.toNat hb _ elems rfl)

theorem chunkN_flatten_fuel (b : Nat) (hb : 0 < b) :
    ∀ (n : Nat) (l : List α), l.length ≤ n → (chunkN b l).flatten = l := by
  intro n
  induction n with
  | zero =>
      intro l hlen
      have : l = [] := by
        cases l with
        | nil => rfl
        | cons a t => simp at hlen
      rw [this, chunkN_nil]
      rfl
  | succ n ih =>
      intro l hlen
      rcases eq_or_ne l [] with hnil | hne
      · rw [hnil, chunkN_nil]; rfl
      · rw [chunkN_cons b hb l hne, List.flatten_cons]
        have hpos : 1 ≤ l.length := List.length_pos.mpr hne
        rw [ih (l.drop b) (by rw [List.length_drop]; omega)]
        exact List.take_append_drop b l

theorem chunkN_flatten (b : Nat) (hb : 0 < b) (l : List α) :
    (chunkN b l).flatten = l :=
  chunkN_flatten_fuel b hb l.length l Nat.le.refl

theorem chunkN_length (b : Nat) (hb : 0 < b) (l : List α) :
    (chunkN b l).length = (l.length + b - 1) / b := by
  rw [← range_map_pySlice b hb _ l rfl]
  simp

theorem chunkN_dropLast_fuel (b : Nat) (hb : 0 < b) :
    ∀ (n : Nat) (l : List α), l.length ≤ n →
      ∀ c ∈ (chunkN b l).dropLast, c.length = b := by
  intro n
  induction n with
  | zero =>
      intro l hlen c hc
      cases l with
      | nil => rw [chunkN_nil] at hc; simp at hc
      | cons a t => simp at hlen
  | succ n ih =>
      intro l hlen c hc
      rcases eq_or_ne l [] with hnil | hne
      · rw [hnil, chunkN_nil] at hc; simp at hc
      · rw [chunkN_cons b hb l hne] at hc
        rcases eq_or_ne (chunkN b (l.drop b)) [] with hrest | hrest
        · rw [hrest] at hc
          simp at hc
        · rcases hrest2 : chunkN b (l.drop b) with _ | ⟨r, rs⟩
          · exact absurd hrest2 hrest
          · rw [hrest2, List.dropLast_cons₂, List.mem_cons] at hc
            rcases hc with hc | hc
            · have hdrop : l.drop b ≠ [] := by
                intro hd
                rw [hd, chunkN_nil] at hrest2
                exact (List.cons_ne_nil r rs) hrest2.symm
              have hblen : b < l.length := by
                have := List.length_pos.mpr hdrop
                rw [List.length_drop] at this
                omega
              rw [hc, List.length_take]
              omega
            · have hpos : 1 ≤ l.length := List.length_pos.mpr hne
              refine ih (l.drop b) (by rw [List.length_drop]; omega) c ?_
              rw [hrest2]
              exact hc

theorem chunkN_chunk_le_fuel (b : Nat) (hb : 0 < b) :
    ∀ (n : Nat) (l : List α), l.length ≤ n →
      ∀ c ∈ chunkN b l, c.length ≤ b := by
  intro n
  induction n with
  | zero =>
      intro l hlen c hc
      cases l with
      | nil => rw [chunkN_nil] at hc; simp at hc
      | cons a t => simp at hlen
  | succ n ih =>
      intro l hlen c hc
      rcases eq_or_ne l [] with hnil | hne
      · rw [hnil, chunkN_nil] at hc; simp at hc
      · rw [chunkN_cons b hb l hne, List.mem_cons] at hc
        rcases hc with hc | hc
        · rw [hc, List.length_take]; omega
        · have hpos : 1 ≤ l.length := List.length_pos.mpr hne
          exact ih (l.drop b) (by rw [List.length_drop]; omega) c hc

/-- C6 counterexample: a negative batch size does not fail — Python's
`range(0, 1, -1)` is empty, so `make_batch([0], -1)` silently returns the
empty list of batches instead of raising. -/
theorem make_batch_negative_cex :
    make_batch [(0 : Nat)] (-1) = .ok [] := by
  rfl

/-- C6 amended: `make_batch` fails (with `range`'s `ValueError`) only when
`batchSize = 0`; for `batchSize > 0` it returns consecutive chunks of size
`batchSize`, every chunk before the last of length exactly `batchSize`, each
chunk no longer than `batchSize`, concatenating back to the input, with
`ceil(len(elems)/batchSize)` chunks; for `batchSize < 0` it silently returns
the empty list of batches. -/
theorem make_batch_spec (elems : List α) (B : Int) :
    (B = 0 → make_batch elems B = .error rangeStepZeroMsg) ∧
      (B < 0 → make_batch elems B = .ok []) ∧
      (0 < B → ∃ bs, make_batch elems B = .ok bs ∧
        bs.flatten = elems ∧
        bs.length = (elems.length + B.toNat - 1) / B.toNat ∧
        (∀ c ∈ bs.dropLast, c.length = B.toNat) ∧
        (∀ c ∈ bs, c.length ≤ B.toNat)) := by
  refine ⟨?_, ?_, ?_⟩
  · intro h0
    simp [make_batch, pyRange, h0, Except.map]
  · intro hneg
    have h0 : ¬(B = 0) := by omega
    simp [make_batch, pyRange, h0, hneg, Except.map]
  · intro hpos
    have hb : 0 < B.toNat := by omega
    refine ⟨chunkN B.toNat elems, make_batch_pos elems B hpos,
      chunkN_flatten B.toNat hb elems, chunkN_length B.toNat hb elems,
      chunkN_dropLast_fuel B.toNat hb elems.length elems Nat.le.refl,
      chunkN_chunk_le_fuel B.toNat hb elems.length elems Nat.le.refl⟩

theorem make_batch_spec_witness :
    (0 : Int) < 2 ∧
      (∃ bs, make_batch [(1 : Nat), 2, 3, 4, 5] 2 = .ok bs ∧
        bs.flatten = [1, 2, 3, 4, 5] ∧
        bs.length = 3 ∧
        (∀ c ∈ bs.dropLast, c.length = 2) ∧
        (∀ c ∈ bs, c.length ≤ 2)) :=
  ⟨by decide, (make_batch_spec [(1 : Nat), 2, 3, 4, 5] 2).2.2 (by decide)⟩

/-- Models `await asyncio.gather(*batch)` on a batch of already-determined
task outcomes: if every task succeeds the results are returned in argument
order (asyncio's documented behaviour); if some task fails, the failure is
re-raised (we determinise "the first raised exception" to the first failing
task in argument order). -/
def gather : List (Except String α) → Except String (List α)
  | [] => .ok []
  | t :: ts => do
      let x ← t
      let xs ← gather ts
      pure (x :: xs)

/-- The error of the first failing task in submission order, if any. -/
def firstError : List (Except String α) → Option String
  | [] => none
  | .error e :: _ => some e
  | .ok _ :: ts => firstError ts

/-- The loop body of `process_batch`: `results = []`, and for each batch the
gathered batch results are appended (`results.extend(batch_results)`). -/
def batchRun (acc : List α) (bs : List (List (Except String α))) :
    Except String (List α) :=
  bs.foldlM
    (fun results batch => do
      let batch_results ← gather batch
      pure (results ++ batch_results))
    acc

/-- `process_batch(tasks, batch_size)` (util.py lines 261-277): iterates
`for i in range(0, len(tasks), batch_size)`, takes `batch = tasks[i:i +
batch_size]`, awaits `asyncio.gather(*batch)` and extends the result list.
Each task is modelled by its outcome (`Except String α`); `tqdm` is progress
display only and is not modelled. -/
def process_batch (tasks : List (Except String α)) (batch_size : Int) :
    Except String (List α) := do
  let idxs ← pyRange tasks.length batch_size
  batchRun [] (idxs.map (fun i => pySlice tasks i batch_size.toNat))

theorem gather_error (batch : List (Except String α)) (e : String)
    (h : firstError batch = some e) : gather batch = .error e := by
  induction batch with
  | nil => simp [firstError] at h
  | cons t ts ih =>
      cases t with
      | error e' =>
          simp only [firstError, Option.some.injEq] at h
          subst h
          rfl
      | ok v =>
          simp only [firstError] at h
          simp only [gather, Except.bind, bind, ih h]

theorem gather_ok (batch : List (Except String α))
    (h : firstError batch = none) :
    ∃ vals, gather batch = .ok vals ∧ batch = vals.map Except.ok := by
  induction batch with
  | nil => exact ⟨[], rfl, rfl⟩
  | cons t ts ih =>
      cases t with
      | error e' => simp [firstError] at h
      | ok v =>
          simp only [firstError] at h
          obtain ⟨vals, hg, hmap⟩ := ih h
          refine ⟨v :: vals, ?_, by rw [List.map_cons, ← hmap]⟩
          simp only [gather, Except.bind, bind, hg]
          rfl

theorem firstError_append_some (xs ys : List (Except String α)) (e : String)
    (h : firstError xs = some e) : firstError (xs ++ ys) = some e := by
  induction xs with
  | nil => simp [firstError] at h
  | cons t ts ih =>
      cases t with
      | error e' => simpa [firstError] using h
      | ok v =>
          simp only [firstError] at h ⊢
          exact ih h

theorem firstError_append_none (xs ys : List (Except String α))
    (h : firstError xs = none) : firstError (xs ++ ys) = firstError ys := by
  induction xs with
  | nil => rfl
  | cons t ts ih =>
      cases t with
      | error e' => simp [firstError] at h
      | ok v =>
          simp only [firstError] at h
          show firstError (ts ++ ys) = firstError ys
          exact ih h

theorem firstError_map_ok (vals : List α) :
    firstError (vals.map Except.ok) = none := by
  induction vals with
  | nil => rfl
  | cons v vs ih => simpa [firstError] using ih

theorem batchRun_error (bs : List (List (Except String α))) (e : String)
    (h : firstError bs.flatten = some e) :
    ∀ acc, batchRun acc bs = .error e := by
  induction bs with
  | nil => simp [firstError] at h
  | cons b rest ih =>
      intro acc
      rw [List.flatten_cons] at h
      simp only [batchRun, List.foldlM_cons]
      cases hb : firstError b with
      | some e' =>
          have hee : e' = e := by
            rw [firstError_append_some b rest.flatten e' hb] at h
            exact Option.some.inj h
          rw [gather_error b e' hb, hee]
          rfl
      | none =>
          obtain ⟨vals, hg, _⟩ := gather_ok b hb
          rw [firstError_append_none b rest.flatten hb] at h
          rw [hg]
          exact ih h (acc ++ vals)

theorem batchRun_ok (bs : List (List (Except String α)))
    (h : firstError bs.flatten = none) :
    ∀ acc, ∃ vals, batchRun acc bs = .ok (acc ++ vals) ∧
      bs.flatten = vals.map Except.ok := by
  induction bs with
  | nil => exact fun acc => ⟨[], by rw [List.append_nil]; rfl, rfl⟩
  | cons b rest ih =>
      intro acc
      rw [List.flatten_cons] at h
      cases hb : firstError b with
      | some e' =>
          rw [firstError_append_some b rest.flatten e' hb] at h
          exact absurd h (by simp)
      | none =>
          obtain ⟨vb, hg, hbmap⟩ := gather_ok b hb
          rw [firstError_append_none b rest.flatten hb] at h
          obtain ⟨vrest, hrun, hrmap⟩ := ih h (acc ++ vb)
          refine ⟨vb ++ vrest, ?_, ?_⟩
          · show (do
                let batch_results ← gather b
                pure (acc ++ batch_results) : Except String (List α)) >>=
                  (fun results => batchRun results rest) = _
            rw [hg]
            show batchRun (acc ++ vb) rest = _
            rw [hrun, List.append_assoc]
          · rw [List.flatten_cons, hbmap, hrmap, List.map_append]

theorem process_batch_pos (tasks : List (Except String α)) (B : Int)
    (hB : 0 < B) :
    process_batch tasks B = batchRun [] (chunkN B.toNat tasks) := by
  have hb : 0 < B.toNat := by omega
  have h0 : ¬(B = 0) := by omega
  have h1 : ¬(B < 0) := by omega
  simp only [process_batch, pyRange, if_neg h0, if_neg h1, Except.bind, bind,
    List.map_map]
  exact congrArg (batchRun []) (range_map_pySlice B.toNat hb _ tasks rfl)

/-- C5. Order preservation: for every list of succeeding tasks and every
positive batch size, `process_batch` returns exactly the submitted tasks'
results, in submission order. -/
theorem process_batch_order (vals : List α) (B : Int) (hB : 0 < B) :
    process_batch (vals.map Except.ok) B = .ok vals := by
  have hb : 0 < B.toNat := by omega
  rw [process_batch_pos _ B hB]
  have hflat :
      (chunkN B.toNat (vals.map (Except.ok : α → Except String α))).flatten =
        vals.map Except.ok :=
    chunkN_flatten B.toNat hb _
  have hnone :
      firstError (chunkN B.toNat
        (vals.map (Except.ok : α → Except String α))).flatten = none := by
    rw [hflat]
    exact firstError_map_ok vals
  obtain ⟨vals', hrun, hmap⟩ := batchRun_ok _ hnone []
  rw [hflat] at hmap
  have hinj : Function.Injective (Except.ok : α → Except String α) := by
    intro a b hab
    exact Except.ok.inj hab
  have : vals = vals' := List.map_injective_iff.mpr hinj hmap
  rw [hrun, List.nil_append, this]

theorem process_batch_order_witness :
    (0 : Int) < 2 ∧
      process_batch ([10, 20, 30].map Except.ok) 2 = .ok [(10 : Nat), 20, 30] :=
  ⟨by decide, process_batch_order [10, 20, 30] 2 (by decide)⟩

/-- C2 counterexample: with a negative batch size, `range(0, 1, -1)` is empty,
so `process_batch` runs no batch at all and returns the empty list even though
the (non-failing) task list is non-empty — the returned list is not the
complete result list the claim promises for a run without task failures. -/
theorem process_batch_negative_cex :
    process_batch [Except.ok (1 : Nat)] (-1) = .ok [] ∧
      ([] : List Nat) ≠ [1] := by
  exact ⟨rfl, by decide⟩

/-- C2 amended: for every ordered task list and every **positive** batch size,
if any task fails then the run aborts with the first failing task's error — no
result list is produced and tasks in later batches cannot influence the
outcome (appending arbitrary further tasks yields the same error); if no task
fails, the complete result list is returned. (For batch size 0 the code
raises `range`'s `ValueError` without running tasks, and for negative batch
sizes it returns an empty list without running any task.) -/
theorem process_batch_fail_fast (tasks : List (Except String α)) (B : Int)
    (hB : 0 < B) :
    (∀ e, firstError tasks = some e →
      process_batch tasks B = .error e ∧
        ∀ rest, process_batch (tasks ++ rest) B = .error e) ∧
      (firstError tasks = none →
        ∃ vals, process_batch tasks B = .ok vals ∧ tasks = vals.map Except.ok) := by
  have hb : 0 < B.toNat := by omega
  have herr : ∀ (ts : List (Except String α)) (e : String),
      firstError ts = some e → process_batch ts B = .error e := by
    intro ts e hts
    rw [process_batch_pos ts B hB]
    apply batchRun_error
    rw [chunkN_flatten _ hb]
    exact hts
  refine ⟨fun e he => ⟨herr tasks e he, fun rest =>
    herr (tasks ++ rest) e (firstError_append_some tasks rest e he)⟩, ?_⟩
  intro hnone
  rw [process_batch_pos tasks B hB]
  obtain ⟨vals, hrun, hflat⟩ :=
    batchRun_ok (chunkN B.toNat tasks) (by rw [chunkN_flatten _ hb]; exact hnone) []
  refine ⟨vals, by simpa using hrun, ?_⟩
  rw [chunkN_flatten _ hb] at hflat
  exact hflat

theorem process_batch_fail_fast_witness :
    (0 : Int) < 1 ∧
      process_batch [Except.ok (1 : Nat), Except.error "boom", Except.ok 2] 1 =
        .error "boom" :=
  ⟨by decide,
    ((process_batch_fail_fast [Except.ok (1 : Nat), Except.error "boom",
      Except.ok 2] 1 (by decide)).1 "boom" rfl).1⟩

/-- The dynamically typed `id_` argument of `fetch_one_content`: a Python
string, `None`, or a number. -/
inductive PyId where
  | str : String → PyId
  | pyNone : PyId
  | pyInt : Int → PyId

/-- `fetch_one_content(corpus_data, id_)` (util.py lines 35-46). The store is
a dataframe with a `doc_id` column and the requested column; a row is
modelled as the pair (doc_id, requested-column value). `isinstance(id_, str)`
guards the lookup; `id_ in ['', ""]` is just the empty string test;
`corpus_data[corpus_data['doc_id'] == id_]` keeps the matching rows in store
order, `.empty` raises `ValueError`, and `.iloc[0]` reads the first match. -/
def fetch_one_content (corpus_data : List (String × γ)) (id_ : PyId) :
    Except String (Option γ) :=
  match id_ with
  | .str s =>
      if s = "" then .ok none
      else
        match corpus_data.filter (fun row => row.1 == s) with
        | [] => .error ("ValueError: doc_id: " ++ s ++ " not found in corpus_data.")
        | row :: _ => .ok (some row.2)
  | _ => .ok none

theorem find?_filter_cons (p : β → Bool) (l : List β) (x : β)
    (h : l.find? p = some x) : ∃ rest, l.filter p = x :: rest := by
  induction l with
  | nil => simp at h
  | cons a t ih =>
      by_cases hpa : p a
      · rw [List.find?_cons_of_pos _ hpa] at h
        exact ⟨t.filter p, by rw [List.filter_cons_of_pos hpa, Option.some.inj h]⟩
      · rw [List.find?_cons_of_neg _ hpa] at h
        obtain ⟨rest, hrest⟩ := ih h
        exact ⟨rest, by rw [List.filter_cons_of_neg hpa, hrest]⟩

/-- C8. `fetch_one_content` returns `None` for the empty-string id; for a
non-empty id it fails (with the not-found `ValueError`) exactly when no store
row's `doc_id` equals the id, and otherwise returns the requested column's
value of the first matching row. -/
theorem fetch_one_content_spec (corpus_data : List (String × γ)) (s : String) :
    (s = "" → fetch_one_content corpus_data (.str s) = .ok none) ∧
      (s ≠ "" → (∀ row ∈ corpus_data, row.1 ≠ s) →
        ∃ e, fetch_one_content corpus_data (.str s) = .error e) ∧
      (s ≠ "" → ∀ row, corpus_data.find? (fun row => row.1 == s) = some row →
        fetch_one_content corpus_data (.str s) = .ok (some row.2)) := by
  refine ⟨fun he => by simp [fetch_one_content, he], fun hne hnotin => ?_,
    fun hne row hfind => ?_⟩
  · have hfil : corpus_data.filter (fun row => row.1 == s) = [] := by
      rw [List.filter_eq_nil_iff]
      intro a ha
      simpa using hnotin a ha
    refine ⟨"ValueError: doc_id: " ++ s ++ " not found in corpus_data.", ?_⟩
    simp only [fetch_one_content, if_neg hne, hfil]
  · obtain ⟨rest, hfil⟩ := find?_filter_cons _ corpus_data row hfind
    simp only [fetch_one_content, if_neg hne, hfil]

theorem fetch_one_content_spec_witness :
    ("id1" : String) ≠ "" ∧
      fetch_one_content [("id1", (42 : Nat))] (PyId.str "id1") = .ok (some 42) :=
  ⟨by decide,
    (fetch_one_content_spec [("id1", (42 : Nat))] "id1").2.2 (by decide)
      ("id1", 42) rfl⟩

/-- C10. For every store, an identifier that is not a string (Python `None`
or a number) makes `fetch_one_content` return `None` with no error; the
result does not depend on the store at all (the store is never consulted). -/
theorem fetch_one_content_non_string (corpus_data : List (String × γ))
    (id_ : PyId) (h : ∀ s, id_ ≠ PyId.str s) :
    fetch_one_content corpus_data id_ = .ok none := by
  cases id_ with
  | str s => exact absurd rfl (h s)
  | pyNone => rfl
  | pyInt n => rfl

theorem fetch_one_content_non_string_witness :
    (∀ s, PyId.pyInt 7 ≠ PyId.str s) ∧
      fetch_one_content [("id1", (42 : Nat))] (PyId.pyInt 7) = .ok none :=
  ⟨fun s h => PyId.noConfusion h,
    fetch_one_content_non_string [("id1", (42 : Nat))] (PyId.pyInt 7)
      (fun s h => PyId.noConfusion h)⟩

/-- The external embedding provider consumed by `embedding_query_content`:
`isOpenAI` models the `isinstance(embedding_model, OpenAIEmbedding)` test,
`truncateText` the per-text tokenizer truncation of
`openai_truncate_by_token` (tiktoken is external; encode/decode at a token
limit is abstracted to one deterministic text-to-text function), and
`embedBatch` the provider's `get_text_embedding_batch`. Setting
`embed_batch_size` only tunes the provider's internal chunking and has no
observable effect on the returned list, so it is not modelled. -/
structure EmbeddingModel (β : Type) where
  isOpenAI : Bool
  truncateText : String → String
  embedBatch : List String → List β

/-- `openai_truncate_by_token(texts, ...)` (util.py lines 301-312): maps the
per-text truncation over the texts. -/
def openai_truncate_by_token (truncate_text : String → String)
    (texts : List String) : List String :=
  texts.map truncate_text

/-- `embedding_query_content(queries, contents_list, embedding_model, batch)`
(util.py lines 442-460): flattens the ragged contents, truncates queries and
flattened contents when the provider is an `OpenAIEmbedding`, embeds both
batches, and reconstructs the content vectors with the per-row lengths
`content_lengths = list(map(len, contents_list))`. -/
def embedding_query_content (queries : List String)
    (contents_list : List (List String)) (embedding_model : EmbeddingModel β) :
    List β × List (List β) :=
  let flatten_contents := chain_from_iterable contents_list
  let queries' :=
    if embedding_model.isOpenAI then
      openai_truncate_by_token embedding_model.truncateText queries
    else queries
  let flatten_contents' :=
    if embedding_model.isOpenAI then
      openai_truncate_by_token embedding_model.truncateText flatten_contents
    else flatten_contents
  let query_embeddings := embedding_model.embedBatch queries'
  let content_lengths := contents_list.map List.length
  let content_embeddings_flatten := embedding_model.embedBatch flatten_contents'
  (query_embeddings, reconstruct_list content_embeddings_flatten content_lengths)

/-- C9. Shape preservation: if the provider returns exactly one vector per
input string (in input order), `embedding_query_content` returns one query
vector per query and content vectors in rows whose lengths equal the original
per-row lengths of the ragged contents. -/
theorem embedding_query_content_shape (queries : List String)
    (contents_list : List (List String)) (embedding_model : EmbeddingModel β)
    (hlen : ∀ inputs, (embedding_model.embedBatch inputs).length = inputs.length) :
    (embedding_query_content queries contents_list embedding_model).1.length =
        queries.length ∧
      ((embedding_query_content queries contents_list embedding_model).2).map
          List.length = contents_list.map List.length := by
  unfold embedding_query_content
  constructor
  · cases hoa : embedding_model.isOpenAI with
    | true => simp [hoa, hlen, openai_truncate_by_token]
    | false => simp [hoa, hlen]
  · have hflatlen :
        ∀ flat : List β,
          flat.length = (chain_from_iterable contents_list).length →
            (reconstruct_list flat (contents_list.map List.length)).map
              List.length = contents_list.map List.length := by
      intro flat hfl
      rw [reconstruct_list_eq_aux]
      apply reconAux_map_length
      rw [hfl, chain_from_iterable, List.length_flatten]
      simp [Nat.zero_add]
    cases hoa : embedding_model.isOpenAI with
    | true =>
        simp only [hoa, if_true]
        exact hflatlen _ (by rw [hlen, openai_truncate_by_token, List.length_map])
    | false =>
        simp only [hoa, if_false]
        exact hflatlen _ (hlen _)

theorem embedding_query_content_shape_witness :
    (∀ inputs : List String,
        ((EmbeddingModel.mk false id (fun l => l.map String.length)).embedBatch
          inputs).length = inputs.length) ∧
      ((embedding_query_content ["q1", "q2"] [["a", "b", "c"], [], ["d", "e"]]
            (EmbeddingModel.mk false id (fun l => l.map String.length))).1.length =
          2 ∧
        ((embedding_query_content ["q1", "q2"] [["a", "b", "c"], [], ["d", "e"]]
            (EmbeddingModel.mk false id
              (fun l => l.map String.length))).2).map List.length = [3, 0, 2]) := by
  have hlen : ∀ inputs : List String,
      ((EmbeddingModel.mk false id
        (fun l => l.map String.length)).embedBatch inputs).length =
          inputs.length := by
    intro inputs
    exact List.length_map inputs String.length
  exact ⟨hlen, embedding_query_content_shape ["q1", "q2"]
    [["a", "b", "c"], [], ["d", "e"]] (EmbeddingModel.mk false id
      (fun l => l.map String.length)) hlen⟩

/-- A cell of the exploded dataframe column: a real element, or the `NaN`
placeholder pandas inserts when `explode` meets an empty list. -/
inductive Cell (α : Type) where
  | val : α → Cell α
  | nan : Cell α
deriving DecidableEq

/-- `df.explode('col1')` on `pd.DataFrame({'col1': nested_list})`, keeping the
original row index: row `i` contributes one `(i, value)` pair per element, in
order, and an empty row contributes the single pair `(i, NaN)` (pandas's
documented behaviour for empty list-likes). `n` is the index of the first
row. -/
def explodeRows : Nat → List (List α) → List (Nat × Cell α)
  | _, [] => []
  | i, row :: rest =>
      (if row.isEmpty then [(i, Cell.nan)]
        else row.map (fun x => (i, Cell.val x))) ++ explodeRows (i + 1) rest

/-- The distinct keys of a list in first-seen order (the group order of
`groupby(level=0, sort=False)`). -/
def firstSeen [DecidableEq κ] : List κ → List κ
  | [] => []
  | k :: rest => k :: firstSeen (rest.filter (fun x => decide (x ≠ k)))
termination_by l => l.length
decreasing_by
  exact Nat.lt_succ_of_le (List.length_filter_le _ _)

/-- `df.groupby(level=0, sort=False)['result'].apply(list).tolist()`: for each
index key in first-seen order, the list of that key's values in row order. -/
def groupByFirstSeen [DecidableEq κ] (pairs : List (κ × β)) : List (List β) :=
  (firstSeen (pairs.map Prod.fst)).map
    (fun k => (pairs.filter (fun p => p.1 == k)).map Prod.snd)

/-- `flatten_apply(func, nested_list)` (util.py lines 324-337): explodes the
nested list into an indexed flat column (empty rows leaving one `NaN` cell),
applies `func` once to the whole flat column, assigns the results positionally
as a new column (pandas raises `ValueError` if the lengths differ), and groups
the results by the original row index in first-seen order. -/
def flatten_apply (func : List (Cell α) → List β)
    (nested_list : List (List α)) : Except String (List (List β)) :=
  let exploded := explodeRows 0 nested_list
  let results := func (exploded.map Prod.snd)
  if results.length = exploded.length then
    .ok (groupByFirstSeen ((exploded.map Prod.fst).zip results))
  else .error "ValueError: Length of values does not match length of index"

theorem zip_fst_snd (l : List (κ × β)) :
    (l.map Prod.fst).zip (l.map Prod.snd) = l := by
  have h := List.zip_unzip l
  rwa [List.unzip_eq_map] at h

theorem firstSeen_subset_fuel [DecidableEq κ] :
    ∀ (m : Nat) (l : List κ), l.length ≤ m → ∀ x ∈ firstSeen l, x ∈ l := by
  intro m
  induction m with
  | zero =>
      intro l hl x hx
      cases l with
      | nil => simp [firstSeen] at hx
      | cons k rest => simp at hl
  | succ m ih =>
      intro l hl x hx
      cases l with
      | nil => simp [firstSeen] at hx
      | cons k rest =>
          simp only [firstSeen, List.mem_cons] at hx
          rcases hx with hx | hx
          · exact hx ▸ List.mem_cons_self k rest
          · have hlen : (rest.filter (fun x => decide (x ≠ k))).length ≤ m :=
              le_trans (List.length_filter_le _ _) (by simpa using hl)
            have := ih _ hlen x hx
            exact List.mem_cons_of_mem k (List.mem_of_mem_filter this)

theorem firstSeen_subset [DecidableEq κ] (l : List κ) :
    ∀ x ∈ firstSeen l, x ∈ l :=
  firstSeen_subset_fuel l.length l Nat.le.refl

theorem firstSeen_block [DecidableEq κ] (n : κ) (ks ks' : List κ)
    (hne : ks ≠ []) (hall : ∀ x ∈ ks, x = n) (hnot : n ∉ ks') :
    firstSeen (ks ++ ks') = n :: firstSeen ks' := by
  cases ks with
  | nil => exact absurd rfl hne
  | cons k₀ ks₁ =>
      have hk₀ : k₀ = n := hall k₀ (List.mem_cons_self k₀ ks₁)
      subst hk₀
      simp only [List.cons_append, firstSeen]
      congr 1
      rw [List.filter_append]
      have h1 : ks₁.filter (fun x => decide (x ≠ k₀)) = [] := by
        rw [List.filter_eq_nil_iff]
        intro a ha
        have : a = k₀ := hall a (List.mem_cons_of_mem k₀ ha)
        simp [this]
      have h2 : ks'.filter (fun x => decide (x ≠ k₀)) = ks' := by
        rw [List.filter_eq_self]
        intro a ha
        simp only [decide_eq_true_eq]
        intro haeq
        exact hnot (haeq ▸ ha)
      rw [h1, h2, List.nil_append]

theorem explodeRows_le (rows : List (List α)) :
    ∀ n p, p ∈ explodeRows n rows → n ≤ p.1 := by
  induction rows with
  | nil =>
      intro n p hp
      simp [explodeRows] at hp
  | cons row rest ih =>
      intro n p hp
      simp only [explodeRows, List.mem_append] at hp
      rcases hp with hp | hp
      · by_cases hr : row.isEmpty
        · rw [if_pos hr] at hp
          simp only [List.mem_singleton] at hp
          rw [hp]
        · rw [if_neg hr] at hp
          obtain ⟨x, _, hx⟩ := List.mem_map.mp hp
          rw [← hx]
      · have := ih (n + 1) p hp
        omega

theorem groupBy_explode (rows : List (List α)) :
    ∀ n, groupByFirstSeen (explodeRows n rows) =
      rows.map (fun r => if r.isEmpty then [Cell.nan] else r.map Cell.val) := by
  induction rows with
  | nil =>
      intro n
      simp [groupByFirstSeen, explodeRows, firstSeen]
  | cons row rest ih =>
      intro n
      have hblk_ne :
          (if row.isEmpty then [(n, Cell.nan)]
            else row.map (fun x => (n, Cell.val x))) ≠ [] := by
        cases row <;> simp
      have hblk_fst :
          ∀ p ∈ (if row.isEmpty then [(n, Cell.nan)]
            else row.map (fun x => (n, Cell.val x))), p.1 = n := by
        intro p hp
        by_cases hr : row.isEmpty
        · rw [if_pos hr] at hp
          simp only [List.mem_singleton] at hp
          rw [hp]
        · rw [if_neg hr] at hp
          obtain ⟨x, _, hx⟩ := List.mem_map.mp hp
          rw [← hx]
      have hrest_gt : ∀ p ∈ explodeRows (n + 1) rest, n < p.1 := by
        intro p hp
        have := explodeRows_le rest (n + 1) p hp
        omega
      have hnotE : n ∉ (explodeRows (n + 1) rest).map Prod.fst := by
        intro hmem
        obtain ⟨p, hp, hp1⟩ := List.mem_map.mp hmem
        have := hrest_gt p hp
        omega
      show groupByFirstSeen
        ((if row.isEmpty then [(n, Cell.nan)]
          else row.map (fun x => (n, Cell.val x))) ++ explodeRows (n + 1) rest) = _
      rw [groupByFirstSeen, List.map_append,
        firstSeen_block n _ _
          (by intro hc; exact hblk_ne (List.map_eq_nil.mp hc))
          (by intro x hx
              obtain ⟨p, hp, hp1⟩ := List.mem_map.mp hx
              rw [← hp1]
              exact hblk_fst p hp)
          hnotE,
        List.map_cons]
      congr 1
      · rw [List.filter_append]
        have h1 :
            (if row.isEmpty then [(n, Cell.nan)]
              else row.map (fun x => (n, Cell.val x))).filter
                (fun p => p.1 == n) =
              (if row.isEmpty then [(n, Cell.nan)]
                else row.map (fun x => (n, Cell.val x))) := by
          rw [List.filter_eq_self]
          intro p hp
          simp [hblk_fst p hp]
        have h2 : (explodeRows (n + 1) rest).filter (fun p => p.1 == n) = [] := by
          rw [List.filter_eq_nil_iff]
          intro p hp
          have := hrest_gt p hp
          simp only [beq_iff_eq]
          omega
        rw [h1, h2, List.append_nil]
        by_cases hr : row.isEmpty
        · simp [hr]
        · simp [hr, List.map_map]
      · have hcongr :
            ∀ k ∈ firstSeen ((explodeRows (n + 1) rest).map Prod.fst),
              (((if row.isEmpty then [(n, Cell.nan)]
                else row.map (fun x => (n, Cell.val x))) ++
                  explodeRows (n + 1) rest).filter (fun p => p.1 == k)).map
                    Prod.snd =
                ((explodeRows (n + 1) rest).filter
                  (fun p => p.1 == k)).map Prod.snd := by
          intro k hk
          have hkE := firstSeen_subset _ k hk
          obtain ⟨p, hp, hp1⟩ := List.mem_map.mp hkE
          have hkn : k ≠ n := by
            have := hrest_gt p hp
            omega
          rw [List.filter_append]
          have hblkfil :
              (if row.isEmpty then [(n, Cell.nan)]
                else row.map (fun x => (n, Cell.val x))).filter
                  (fun p => p.1 == k) = [] := by
            rw [List.filter_eq_nil_iff]
            intro q hq
            rw [hblk_fst q hq]
            simp only [beq_iff_eq]
            exact fun hc => hkn hc.symm
          rw [hblkfil, List.nil_append]
        rw [List.map_congr_left hcongr]
        exact ih (n + 1)

/-- C4. `flatten_apply` with the identity transform returns the input rows,
except that each zero-length row is normalized to the single-`NaN` placeholder
row; in particular the output has the same number of rows as the input. -/
theorem flatten_apply_identity (rows : List (List α)) :
    flatten_apply (fun cells => cells) rows =
        .ok (rows.map (fun r => if r.isEmpty then [Cell.nan] else r.map Cell.val)) ∧
      (rows.map (fun r =>
        if r.isEmpty then [Cell.nan] else r.map Cell.val)).length = rows.length := by
  refine ⟨?_, List.length_map rows _⟩
  simp only [flatten_apply, List.length_map, eq_self_iff_true, if_true, zip_fst_snd]
  exact congrArg Except.ok (groupBy_explode rows 0)

/-- A value of `target_dict` in `make_combinations`: either a Python list of
candidates or a single (non-list) value. -/
inductive PyParam (α : Type) where
  | single : α → PyParam α
  | list : List α → PyParam α

/-- The normalisation `x[1] if isinstance(x[1], list) else [x[1]]`
(util.py line 128). -/
def toValueList : PyParam α → List α
  | .single v => [v]
  | .list l => l

/-- `delete_duplicate(x)` (util.py lines 131-143): if any element is
unhashable the list is returned as given; otherwise duplicates are removed
via `list(set(x))`, whose element order is implementation-defined — we fix
the first-seen order (the claims under verification do not depend on the
order). Equality models Python `==`/`hash` agreement on hashable values. -/
def delete_duplicate [DecidableEq α] (isHashable : α → Bool) (x : List α) :
    List α :=
  if x.any (fun e => !isHashable e) then x else firstSeen x

/-- `itertools.product(*lists)` as a list of combinations, rightmost factor
varying fastest. -/
def itertools_product : List (List α) → List (List α)
  | [] => [[]]
  | l :: ls => l.flatMap (fun a => (itertools_product ls).map (fun c => a :: c))

/-- `make_combinations(target_dict)` (util.py lines 116-148): normalises each
value to a candidate list, deduplicates hashable candidate lists, takes the
Cartesian product of the candidate lists in key order and zips each
combination back with the keys (`dict(zip(keys, combo))`); a Python dict is
modelled as its ordered association list. -/
def make_combinations [DecidableEq α] (isHashable : α → Bool)
    (target_dict : List (String × PyParam α)) : List (List (String × α)) :=
  let dict_with_lists := target_dict.map (fun x => (x.1, toValueList x.2))
  let dict_with_lists2 :=
    dict_with_lists.map (fun x => (x.1, delete_duplicate isHashable x.2))
  let combos := itertools_product (dict_with_lists2.map Prod.snd)
  combos.map (fun combo => (dict_with_lists2.map Prod.fst).zip combo)

theorem sum_map_const_nat (l : List α) (c : Nat) :
    (l.map (fun _ => c)).sum = l.length * c := by
  induction l with
  | nil => simp
  | cons a t ih =>
      rw [List.map_cons, List.sum_cons, ih, List.length_cons, Nat.succ_mul,
        Nat.add_comm]

theorem length_itertools_product (Ls : List (List α)) :
    (itertools_product Ls).length = (Ls.map List.length).prod := by
  induction Ls with
  | nil => rfl
  | cons l ls ih =>
      simp only [itertools_product, List.length_flatMap, List.map_cons,
        List.prod_cons]
      have hconst :
          List.map (List.length ∘ fun a => (itertools_product ls).map
            (fun c => a :: c)) l =
            List.map (fun _ => (itertools_product ls).length) l :=
        List.map_congr_left (fun a _ => List.length_map _ _)
      rw [hconst, sum_map_const_nat, ih]

theorem mem_itertools_product (Ls : List (List α)) (c : List α) :
    c ∈ itertools_product Ls ↔ List.Forall₂ (fun x l => x ∈ l) c Ls := by
  induction Ls generalizing c with
  | nil =>
      simp only [itertools_product, List.mem_singleton,
        List.forall₂_nil_right_iff]
  | cons l ls ih =>
      simp only [itertools_product, List.mem_flatMap, List.mem_map]
      constructor
      · rintro ⟨a, ha, c', hc', rfl⟩
        exact List.Forall₂.cons ha (ih c' |>.mp hc')
      · intro h
        cases h with
        | cons hx hrest => exact ⟨_, hx, _, (ih _).mpr hrest, rfl⟩

theorem nodup_map_inj_on (f : α → β) (l : List α)
    (hinj : ∀ x ∈ l, ∀ y ∈ l, f x = f y → x = y) (h : l.Nodup) :
    (l.map f).Nodup := by
  induction l with
  | nil => simp
  | cons a t ih =>
      rw [List.nodup_cons] at h
      rw [List.map_cons, List.nodup_cons]
      refine ⟨?_, ih (fun x hx y hy =>
        hinj x (List.mem_cons_of_mem a hx) y (List.mem_cons_of_mem a hy)) h.2⟩
      intro hc
      obtain ⟨x, hx, hfx⟩ := List.mem_map.mp hc
      have hxa : x = a :=
        hinj x (List.mem_cons_of_mem a hx) a (List.mem_cons_self a t) hfx
      exact h.1 (hxa ▸ hx)

theorem nodup_itertools_product (Ls : List (List α))
    (h : ∀ L ∈ Ls, L.Nodup) : (itertools_product Ls).Nodup := by
  induction Ls with
  | nil => simp [itertools_product]
  | cons l ls ih =>
      rw [itertools_product, List.nodup_flatMap]
      refine ⟨fun a _ => ?_, ?_⟩
      · refine List.Nodup.map ?_ (ih (fun L hL => h L (List.mem_cons_of_mem l hL)))
        intro c₁ c₂ hc
        exact (List.cons.inj hc).2
      · have hl : l.Nodup := h l (List.mem_cons_self l ls)
        refine hl.imp ?_
        intro a b hab x hxa hxb
        obtain ⟨c₁, _, hc₁⟩ := List.mem_map.mp hxa
        obtain ⟨c₂, _, hc₂⟩ := List.mem_map.mp hxb
        have : a = b := by
          have := hc₁.trans hc₂.symm
          exact (List.cons.inj this).1
        exact hab this

theorem firstSeen_nodup_fuel [DecidableEq κ] :
    ∀ (m : Nat) (l : List κ), l.length ≤ m → (firstSeen l).Nodup := by
  intro m
  induction m with
  | zero =>
      intro l hl
      cases l with
      | nil => simp [firstSeen]
      | cons k rest => simp at hl
  | succ m ih =>
      intro l hl
      cases l with
      | nil => simp [firstSeen]
      | cons k rest =>
          simp only [firstSeen, List.nodup_cons]
          have hlen : (rest.filter (fun x => decide (x ≠ k))).length ≤ m :=
            le_trans (List.length_filter_le _ _) (by simpa using hl)
          refine ⟨?_, ih _ hlen⟩
          intro hk
          have := firstSeen_subset _ k hk
          have := List.of_mem_filter this
          simp at this

theorem firstSeen_nodup [DecidableEq κ] (l : List κ) : (firstSeen l).Nodup :=
  firstSeen_nodup_fuel l.length l Nat.le.refl

theorem mem_firstSeen_fuel [DecidableEq κ] :
    ∀ (m : Nat) (l : List κ) (x : κ), l.length ≤ m →
      (x ∈ firstSeen l ↔ x ∈ l) := by
  intro m
  induction m with
  | zero =>
      intro l x hl
      cases l with
      | nil => simp [firstSeen]
      | cons k rest => simp at hl
  | succ m ih =>
      intro l x hl
      cases l with
      | nil => simp [firstSeen]
      | cons k rest =>
          have hlen : (rest.filter (fun y => decide (y ≠ k))).length ≤ m :=
            le_trans (List.length_filter_le _ _) (by simpa using hl)
          simp only [firstSeen, List.mem_cons, ih _ x hlen,
            List.mem_filter, decide_eq_true_eq]
          constructor
          · rintro (rfl | ⟨hx, _⟩)
            · exact Or.inl rfl
            · exact Or.inr hx
          · rintro (rfl | hx)
            · exact Or.inl rfl
            · by_cases hxk : x = k
              · exact Or.inl hxk
              · exact Or.inr ⟨hx, hxk⟩

theorem mem_firstSeen_iff [DecidableEq κ] (l : List κ) (x : κ) :
    x ∈ firstSeen l ↔ x ∈ l :=
  mem_firstSeen_fuel l.length l x Nat.le.refl

theorem firstSeen_length [DecidableEq κ] (l : List κ) :
    (firstSeen l).length = l.toFinset.card := by
  have htf : (firstSeen l).toFinset = l.toFinset := by
    apply Finset.ext
    intro x
    simp [List.mem_toFinset, mem_firstSeen_iff]
  rw [← htf, List.toFinset_card_of_nodup (firstSeen_nodup l)]

theorem make_combinations_eq [DecidableEq α] (isHashable : α → Bool)
    (target_dict : List (String × PyParam α))
    (hhash : ∀ p ∈ target_dict, ∀ v ∈ toValueList p.2, isHashable v = true) :
    make_combinations isHashable target_dict =
      (itertools_product
        (target_dict.map (fun p => firstSeen (toValueList p.2)))).map
        (fun combo => (target_dict.map Prod.fst).zip combo) := by
  unfold make_combinations
  simp only [List.map_map]
  have hsnd :
      target_dict.map (Prod.snd ∘ ((fun x : String × List α =>
          (x.1, delete_duplicate isHashable x.2)) ∘
        (fun x : String × PyParam α => (x.1, toValueList x.2)))) =
        target_dict.map (fun p => firstSeen (toValueList p.2)) := by
    apply List.map_congr_left
    intro p hp
    show delete_duplicate isHashable (toValueList p.2) =
      firstSeen (toValueList p.2)
    unfold delete_duplicate
    rw [if_neg]
    intro hc
    obtain ⟨e, he, hne⟩ := List.any_eq_true.mp hc
    rw [hhash p hp e he] at hne
    simp at hne
  rw [hsnd]
  rfl

theorem zip_keys_forall₂ [DecidableEq α] (target_dict : List (String × PyParam α)) :
    ∀ combo : List α,
      List.Forall₂ (fun x l => x ∈ l) combo
        (target_dict.map (fun p => firstSeen (toValueList p.2))) →
      List.Forall₂ (fun kv p => kv.1 = p.1 ∧ kv.2 ∈ toValueList p.2)
        ((target_dict.map Prod.fst).zip combo) target_dict := by
  induction target_dict with
  | nil =>
      intro combo h
      rw [List.map_nil, List.forall₂_nil_right_iff] at h
      rw [h]
      exact List.Forall₂.nil
  | cons p td ih =>
      intro combo h
      rw [List.map_cons] at h
      cases h with
      | cons hx hrest =>
          rw [List.map_cons, List.zip_cons_cons]
          exact List.Forall₂.cons
            ⟨rfl, (mem_firstSeen_iff _ _).mp hx⟩ (ih _ hrest)

/-- C7. When every candidate value is hashable, `make_combinations` on a
parameter mapping (unique keys, as any Python dict has) returns exactly the
product over the keys of their numbers of distinct candidates, the returned
assignments are pairwise distinct, and each assignment binds exactly the
input keys, in order, each to one of that key's candidates. -/
theorem make_combinations_spec [DecidableEq α] (isHashable : α → Bool)
    (target_dict : List (String × PyParam α))
    (hkeys : (target_dict.map Prod.fst).Nodup)
    (hhash : ∀ p ∈ target_dict, ∀ v ∈ toValueList p.2, isHashable v = true) :
    (make_combinations isHashable target_dict).length =
        (target_dict.map (fun p => (toValueList p.2).toFinset.card)).prod ∧
      (make_combinations isHashable target_dict).Nodup ∧
      ∀ d ∈ make_combinations isHashable target_dict,
        List.Forall₂ (fun kv p => kv.1 = p.1 ∧ kv.2 ∈ toValueList p.2)
          d target_dict := by
  rw [make_combinations_eq isHashable target_dict hhash]
  refine ⟨?_, ?_, ?_⟩
  · rw [List.length_map, length_itertools_product, List.map_map]
    congr 1
    apply List.map_congr_left
    intro p _
    exact firstSeen_length (toValueList p.2)
  · apply nodup_map_inj_on
    · intro c₁ hc₁ c₂ hc₂ heq
      have hl₁ :=
        ((mem_itertools_product _ c₁).mp hc₁).length_eq
      have hl₂ :=
        ((mem_itertools_product _ c₂).mp hc₂).length_eq
      rw [List.length_map] at hl₁ hl₂
      have hk : (target_dict.map Prod.fst).length = target_dict.length :=
        List.length_map _ _
      have h₁ := List.map_snd_zip (target_dict.map Prod.fst) c₁ (by omega)
      have h₂ := List.map_snd_zip (target_dict.map Prod.fst) c₂ (by omega)
      rw [← h₁, ← h₂, heq]
    · exact nodup_itertools_product _ (fun L hL => by
        obtain ⟨p, _, hp⟩ := List.mem_map.mp hL
        rw [← hp]
        exact firstSeen_nodup _)
  · intro d hd
    obtain ⟨combo, hcombo, hzip⟩ := List.mem_map.mp hd
    rw [← hzip]
    exact zip_keys_forall₂ target_dict combo
      ((mem_itertools_product _ combo).mp hcombo)

theorem make_combinations_spec_witness :
    (([("a", PyParam.list [(1 : Nat), 1, 2])].map Prod.fst).Nodup ∧
      (∀ p ∈ [("a", PyParam.list [(1 : Nat), 1, 2])],
        ∀ v ∈ toValueList p.2, (fun _ : Nat => true) v = true)) ∧
      ((make_combinations (fun _ => true)
            [("a", PyParam.list [(1 : Nat), 1, 2])]).length =
          ([("a", PyParam.list [(1 : Nat), 1, 2])].map
            (fun p => (toValueList p.2).toFinset.card)).prod ∧
        (make_combinations (fun _ => true)
          [("a", PyParam.list [(1 : Nat), 1, 2])]).Nodup ∧
        ∀ d ∈ make_combinations (fun _ => true)
            [("a", PyParam.list [(1 : Nat), 1, 2])],
          List.Forall₂ (fun kv p => kv.1 = p.1 ∧ kv.2 ∈ toValueList p.2)
            d [("a", PyParam.list [(1 : Nat), 1, 2])]) :=
  ⟨⟨by simp, by intro p hp v hv; rfl⟩,
    make_combinations_spec (fun _ => true)
      [("a", PyParam.list [(1 : Nat), 1, 2])] (by simp)
      (by intro p hp v hv; rfl)⟩

end AutoRAG
